import Mathlib

/-!
# Acid / Flounder engine: component lookup, scalar maths helpers, device choice

Shallow embedding of

* `Entity::GetComponent<T>`            (Sources/FlounderEngine/src/entities/Entity.hpp)
* `maths::mod`, `maths::normalizeAngle`, `maths::clamp`
                                       (Flounder Engine/Sources/maths/maths.h)
* `PhysicalDevice::ChoosePhysicalDevice`, `PhysicalDevice::ScorePhysicalDevice`
                                       (Sources/Devices/PhysicalDevice.cpp)

The first part of the file holds the definitions, the second part the theorems.
-/

namespace Flounder

/-! ## Entity::GetComponent -/

/-- `Entity::GetComponent<T>`: the range-for loop over `*m_components`.
`C` is the type of the stored `IComponent*` values, `T` the requested pointer type and
`dynCast c` the value of `dynamic_cast<T>(c)`, with `none` for `nullptr`.  The loop returns
the first non-null cast; falling out of the loop returns `nullptr`. -/
def GetComponent {C T : Type} (dynCast : C → Option T) : List C → Option T
  | [] => none
  | c :: rest =>
    match dynCast c with
    | some casted => some casted
    | none => GetComponent dynCast rest

/-- A component satisfies the requested capability when the dynamic cast is non-null. -/
def Satisfies {C T : Type} (dynCast : C → Option T) (c : C) : Prop :=
  (dynCast c).isSome = true

instance instDecidableSatisfies {C T : Type} (dynCast : C → Option T) (c : C) :
    Decidable (Satisfies dynCast c) := by
  unfold Satisfies; infer_instance

/-- Two collider kinds attached to one entity, and one component that is no collider. -/
inductive DemoComponent where
  | sphereCollider
  | boxCollider
  | mesh
  deriving DecidableEq, Repr

/-- The collider capability cast on the demo components: colliders cast to themselves,
the mesh casts to `nullptr`. -/
def asCollider : DemoComponent → Option DemoComponent
  | .sphereCollider => some .sphereCollider
  | .boxCollider => some .boxCollider
  | .mesh => none

end Flounder

namespace flounder

/-! ## Double arithmetic

`maths::mod` and `maths::normalizeAngle` compute in `double`.  A finite `double` is modelled
by the rational number it denotes, and every arithmetic operation of the source is the exact
rational operation followed by a rounding function `rnd : ℚ → ℚ`.  The general theorems below
hold for every `rnd`; concrete evaluations use `roundDouble`, the IEEE-754 binary64
round-to-nearest, ties-to-even rounding (53-bit significand).  NaN, the infinities, signed
zero and the limits of the exponent range (overflow, subnormals) are outside this model. -/

/-- Floor of the base-2 logarithm of `n` for `1 ≤ n` (and `0` for `n = 0`), by repeated
halving; `fuel` bounds the number of halvings and `fuel = n` is always enough. -/
def floorLog2 : Nat → Nat → Nat
  | 0, _ => 0
  | fuel + 1, n => if n < 2 then 0 else floorLog2 fuel (n / 2) + 1

/-- The binary exponent of a positive rational `a`: the integer `e` with
`2 ^ e ≤ a < 2 ^ (e + 1)`.  The difference of the bit lengths of numerator and denominator
is either `e` or `e + 1`; the comparison picks the right one. -/
def binaryExponent (a : ℚ) : ℤ :=
  let e : ℤ := (floorLog2 a.num.natAbs a.num.natAbs : ℤ) - (floorLog2 a.den a.den : ℤ)
  if (2 : ℚ) ^ e ≤ a then e else e - 1

/-- Nearest integer to `t`, ties going to the even neighbour. -/
def roundHalfEven (t : ℚ) : ℤ :=
  let f : ℤ := ⌊t⌋
  if t - f < 1 / 2 then f
  else if 1 / 2 < t - f then f + 1
  else if f % 2 = 0 then f else f + 1

/-- The binary64 value nearest to the rational `q` (round-to-nearest, ties-to-even): `q` is
rounded to an integer multiple of the unit in the last place `2 ^ (e - 52)`, where `e` is
the binary exponent of `|q|`. -/
def roundDouble (q : ℚ) : ℚ :=
  if q = 0 then 0
  else
    let ulp : ℚ := (2 : ℚ) ^ (binaryExponent |q| - 52)
    (roundHalfEven (q / ulp) : ℚ) * ulp

namespace maths

/-! ## maths::mod, maths::normalizeAngle, maths::clamp -/

/-- `maths::mod`: `return x - y * floor(x / y);` on `double`.  The division, the
multiplication and the subtraction each round their exact result with `rnd`; `floor` of a
finite `double` is exact. -/
def mod (rnd : ℚ → ℚ) (x y : ℚ) : ℚ :=
  rnd (x - rnd (y * (⌊rnd (x / y)⌋ : ℚ)))

/-- `maths::normalizeAngle`: one conditional subtraction or addition of `360.0f`
(exactly 360 as a `double`), with `rnd` the rounding of the `double` result. -/
def normalizeAngle (rnd : ℚ → ℚ) (angle : ℚ) : ℚ :=
  if angle ≥ 360 then rnd (angle - 360)
  else if angle < 0 then rnd (angle + 360)
  else angle

/-- `maths::clamp`: `return (value < min) ? min : (value > max) ? max : value;`.
The function only compares its `float` arguments, so it is stated over any type with a
decidable `<`; no law of the order is assumed, which covers the comparisons of IEEE
floats, NaN included. -/
def clamp {α : Type} [LT α] [DecidableRel (fun a b : α => a < b)] (value min max : α) : α :=
  if value < min then min else if value > max then max else value

end maths

end flounder

namespace acid

/-! ## PhysicalDevice::ScorePhysicalDevice and PhysicalDevice::ChoosePhysicalDevice -/

/-- What the Vulkan driver reports for one `VkPhysicalDevice` handle, as far as
`ScorePhysicalDevice` reads it: the names returned by
`vkEnumerateDeviceExtensionProperties`, and `deviceType` and `limits.maxImageDimension2D`
from `vkGetPhysicalDeviceProperties`. -/
structure DeviceReport where
  extensionNames : List String
  deviceType : Nat
  maxImageDimension2D : Nat

/-- The Vulkan enumerator `VK_PHYSICAL_DEVICE_TYPE_DISCRETE_GPU`. -/
def VK_PHYSICAL_DEVICE_TYPE_DISCRETE_GPU : Nat := 2

/-- Conversion of an integer to `int32_t` (two's complement wrap-around). -/
def toInt32 (n : Int) : Int :=
  if n % 2 ^ 32 < 2 ^ 31 then n % 2 ^ 32 else n % 2 ^ 32 - 2 ^ 32

/-- `PhysicalDevice::ScorePhysicalDevice`.  `deviceExtensions` is `Instance::DeviceExtensions`
and `driver` gives what Vulkan reports for a handle.  A device missing one of the requested
extensions scores 0; otherwise the score is 1000 for a discrete GPU plus the `uint32_t`
`maxImageDimension2D`, accumulated in an `int32_t`. -/
def ScorePhysicalDevice {D : Type} (deviceExtensions : List String)
    (driver : D → DeviceReport) (device : D) : Int :=
  let extensionProperties := (driver device).extensionNames
  if deviceExtensions.all (fun currentExtension =>
      extensionProperties.any (fun extension => currentExtension == extension))
  then
    let score : Int := 0
    let score : Int :=
      if (driver device).deviceType = VK_PHYSICAL_DEVICE_TYPE_DISCRETE_GPU
      then toInt32 (score + 1000) else score
    toInt32 (score + ((driver device).maxImageDimension2D % 2 ^ 32 : Nat))
  else 0

/-- `std::multimap<int32_t, VkPhysicalDevice>::emplace`: the map is kept as the list of its
entries in iteration order (ascending keys); a new entry goes after every entry whose key is
not greater, that is at the upper bound of its key. -/
def emplace {D : Type} (key : Int) (value : D) : List (Int × D) → List (Int × D)
  | [] => [(key, value)]
  | entry :: rest =>
    if key < entry.1 then (key, value) :: entry :: rest
    else entry :: emplace key value rest

/-- The first loop of `ChoosePhysicalDevice`: every device is emplaced under its score,
starting from the empty multimap. -/
def rankDevices {D : Type} (score : D → Int) (devices : List D) : List (Int × D) :=
  devices.foldl (fun rankedDevices device => emplace (score device) device rankedDevices) []

/-- `PhysicalDevice::ChoosePhysicalDevice`.  The outer `Option` is `none` when the function
dereferences `rbegin()` of an empty multimap (undefined behaviour, reached exactly on an empty
device list); the inner `Option` is the returned handle, `none` standing for `nullptr`. -/
def ChoosePhysicalDevice {D : Type} (deviceExtensions : List String)
    (driver : D → DeviceReport) (devices : List D) : Option (Option D) :=
  match (rankDevices (ScorePhysicalDevice deviceExtensions driver) devices).getLast? with
  | none => none
  | some rbegin => if rbegin.1 > 0 then some (some rbegin.2) else some none

/-- A driver with two devices: handle 0 is an integrated GPU (type 1), every other handle a
discrete GPU; both report the swapchain extension. -/
def demoDriver : Nat → DeviceReport
  | 0 => { extensionNames := ["VK_KHR_swapchain"], deviceType := 1, maxImageDimension2D := 16384 }
  | _ => { extensionNames := ["VK_KHR_swapchain"], deviceType := 2, maxImageDimension2D := 8192 }

end acid

/-! # Theorems -/

namespace Flounder

/-! ### Lemmas on the lookup loop -/

theorem GetComponent_eq_none_iff {C T : Type} (dynCast : C → Option T) (components : List C) :
    GetComponent dynCast components = none ↔ ∀ c ∈ components, dynCast c = none := by
  induction components with
  | nil => simp [GetComponent]
  | cons c rest ih =>
    cases hc : dynCast c with
    | none => simp [GetComponent, hc, ih]
    | some t => simp [GetComponent, hc]

theorem GetComponent_first {C T : Type} (dynCast : C → Option T) (components : List C)
    (h : ∃ c ∈ components, Satisfies dynCast c) :
    ∃ (i : Nat) (hi : i < components.length) (t : T),
      dynCast (components.get ⟨i, hi⟩) = some t ∧
      GetComponent dynCast components = some t ∧
      ∀ (j : Nat) (hj : j < components.length), j < i →
        ¬ Satisfies dynCast (components.get ⟨j, hj⟩) := by
  induction components with
  | nil => simp at h
  | cons c rest ih =>
    cases hc : dynCast c with
    | some t =>
      refine ⟨0, by simp, t, by simpa using hc, by simp [GetComponent, hc], ?_⟩
      intro j _ hj
      exact absurd hj (Nat.not_lt_zero j)
    | none =>
      have h' : ∃ c ∈ rest, Satisfies dynCast c := by
        obtain ⟨d, hd, hs⟩ := h
        rcases List.mem_cons.mp hd with rfl | hd
        · simp [Satisfies, hc] at hs
        · exact ⟨d, hd, hs⟩
      obtain ⟨i, hi, t, h1, h2, h3⟩ := ih h'
      refine ⟨i + 1, by simpa using hi, t, by simpa using h1, by simp [GetComponent, hc, h2], ?_⟩
      intro j hj hlt
      cases j with
      | zero => simp [Satisfies, hc]
      | succ k =>
        have hk : k < rest.length := by simpa using hj
        simpa using h3 k hk (by omega)

/-! ### Claims on `Entity::GetComponent` -/

/-- C1: whenever some component of the list satisfies the requested capability,
`GetComponent` returns the cast of the component at the lowest satisfying index: there is an
index `i` whose component casts to the returned value and no component at an index below `i`
satisfies the capability.  In particular for the two-element list `[a, b]` with `a`
satisfying the capability (whatever `b` is) the result is the cast of `a`. -/
theorem GetComponent_earliest_match {C T : Type} (dynCast : C → Option T)
    (components : List C) (h : ∃ c ∈ components, Satisfies dynCast c) :
    (∃ (i : Nat) (hi : i < components.length) (t : T),
      dynCast (components.get ⟨i, hi⟩) = some t ∧
      GetComponent dynCast components = some t ∧
      ∀ (j : Nat) (hj : j < components.length), j < i →
        ¬ Satisfies dynCast (components.get ⟨j, hj⟩)) ∧
    (∀ (a b : C) (ta : T), dynCast a = some ta → GetComponent dynCast [a, b] = some ta) :=
  ⟨GetComponent_first dynCast components h, fun a b ta ha => by simp [GetComponent, ha]⟩

theorem GetComponent_earliest_match_witness :
    (∃ c ∈ [DemoComponent.mesh, .sphereCollider, .boxCollider], Satisfies asCollider c) ∧
    ((∃ (i : Nat) (hi : i < [DemoComponent.mesh, .sphereCollider, .boxCollider].length)
        (t : DemoComponent),
      asCollider ([DemoComponent.mesh, .sphereCollider, .boxCollider].get ⟨i, hi⟩) = some t ∧
      GetComponent asCollider [DemoComponent.mesh, .sphereCollider, .boxCollider] = some t ∧
      ∀ (j : Nat) (hj : j < [DemoComponent.mesh, .sphereCollider, .boxCollider].length),
        j < i →
        ¬ Satisfies asCollider
          ([DemoComponent.mesh, .sphereCollider, .boxCollider].get ⟨j, hj⟩)) ∧
    (∀ (a b : DemoComponent) (ta : DemoComponent),
      asCollider a = some ta → GetComponent asCollider [a, b] = some ta)) :=
  ⟨⟨.sphereCollider, by decide, by decide⟩,
   GetComponent_earliest_match asCollider [.mesh, .sphereCollider, .boxCollider]
     ⟨.sphereCollider, by decide, by decide⟩⟩

/-- C2: `GetComponent` returns the absent result exactly when no component of the list
satisfies the requested capability; it returns absent on the empty list; and every value it
returns is the non-null cast of a component of the list, so it never hands back a component
that does not satisfy the capability. -/
theorem GetComponent_absent_iff {C T : Type} (dynCast : C → Option T) (components : List C) :
    (GetComponent dynCast components = none ↔
      ∀ c ∈ components, ¬ Satisfies dynCast c) ∧
    GetComponent dynCast ([] : List C) = none ∧
    (∀ t : T, GetComponent dynCast components = some t →
      ∃ c ∈ components, dynCast c = some t ∧ Satisfies dynCast c) := by
  refine ⟨?_, rfl, ?_⟩
  · rw [GetComponent_eq_none_iff]
    simp [Satisfies]
  · intro t ht
    induction components with
    | nil => simp [GetComponent] at ht
    | cons c rest ih =>
      cases hc : dynCast c with
      | some u =>
        simp only [GetComponent, hc, Option.some.injEq] at ht
        exact ⟨c, by simp, by rw [hc, ht], by simp [Satisfies, hc]⟩
      | none =>
        simp only [GetComponent, hc] at ht
        obtain ⟨d, hd, h1, h2⟩ := ih ht
        exact ⟨d, List.mem_cons_of_mem _ hd, h1, h2⟩

end Flounder

namespace flounder

open maths

/-! ### The rounding model -/

/-- With enough fuel `floorLog2` brackets `n` between consecutive powers of two. -/
theorem floorLog2_spec (fuel n : Nat) (h1 : 1 ≤ n) (h2 : n ≤ fuel) :
    2 ^ floorLog2 fuel n ≤ n ∧ n < 2 ^ (floorLog2 fuel n + 1) := by
  induction fuel generalizing n with
  | zero => omega
  | succ fuel ih =>
    unfold floorLog2
    split
    · constructor <;> simp <;> omega
    · have := ih (n / 2) (by omega) (by omega)
      obtain ⟨ha, hb⟩ := this
      have e1 : 2 ^ (floorLog2 fuel (n / 2) + 1) = 2 * 2 ^ floorLog2 fuel (n / 2) := by
        rw [pow_succ]; ring
      have e2 : 2 ^ (floorLog2 fuel (n / 2) + 1 + 1) = 2 * 2 ^ (floorLog2 fuel (n / 2) + 1) := by
        rw [pow_succ]; ring
      constructor
      · rw [e1]; omega
      · rw [e2]; omega

/-- The binary exponent brackets a positive rational: `2 ^ e ≤ a < 2 ^ (e + 1)`. -/
theorem binaryExponent_spec (a : ℚ) (ha : 0 < a) :
    (2 : ℚ) ^ binaryExponent a ≤ a ∧ a < (2 : ℚ) ^ (binaryExponent a + 1) := by
  have hnum : 0 < a.num := Rat.num_pos.mpr ha
  have hn1 : 1 ≤ a.num.natAbs := by omega
  have hd1 : 1 ≤ a.den := a.den_pos
  obtain ⟨n1, n2⟩ := floorLog2_spec a.num.natAbs a.num.natAbs hn1 le_rfl
  obtain ⟨d1, d2⟩ := floorLog2_spec a.den a.den hd1 le_rfl
  set i := floorLog2 a.num.natAbs a.num.natAbs with hi
  set j := floorLog2 a.den a.den with hj
  have hden : (0 : ℚ) < a.den := by exact_mod_cast a.den_pos
  have hanum : (a.num.natAbs : ℚ) = a.num := by
    have h : (a.num.natAbs : ℤ) = a.num := Int.natAbs_of_nonneg (le_of_lt hnum)
    calc (a.num.natAbs : ℚ) = ((a.num.natAbs : ℤ) : ℚ) := (Int.cast_natCast _).symm
      _ = a.num := by rw [h]
  have haeq : a = (a.num.natAbs : ℚ) / (a.den : ℚ) := by
    rw [hanum]; exact (Rat.num_div_den a).symm
  have n1q : (2 : ℚ) ^ i ≤ (a.num.natAbs : ℚ) := by exact_mod_cast n1
  have n2q : (a.num.natAbs : ℚ) < (2 : ℚ) ^ (i + 1) := by exact_mod_cast n2
  have d1q : (2 : ℚ) ^ j ≤ (a.den : ℚ) := by exact_mod_cast d1
  have d2q : (a.den : ℚ) < (2 : ℚ) ^ (j + 1) := by exact_mod_cast d2
  have p2 : ∀ k : ℕ, (0 : ℚ) < 2 ^ k := fun k => by positivity
  have two_ne : (2 : ℚ) ≠ 0 := by norm_num
  have hz : ∀ k : ℤ, (2 : ℚ) ^ (k + 1) = 2 ^ k * 2 := fun k => by
    rw [zpow_add₀ two_ne, zpow_one]
  have he : (2 : ℚ) ^ ((i : ℤ) - (j : ℤ)) = 2 ^ i / 2 ^ j := by
    rw [zpow_sub₀ two_ne, zpow_natCast, zpow_natCast]
  unfold binaryExponent
  simp only [← hi, ← hj]
  split
  · rename_i hle
    refine ⟨hle, ?_⟩
    rw [hz, he, haeq, div_lt_iff₀ hden, div_mul_eq_mul_div, div_mul_eq_mul_div,
      lt_div_iff₀ (p2 j)]
    have : (2 : ℚ) ^ (i + 1) = 2 ^ i * 2 := pow_succ _ _
    calc (a.num.natAbs : ℚ) * 2 ^ j < 2 ^ (i + 1) * 2 ^ j := by
          apply mul_lt_mul_of_pos_right n2q (p2 j)
      _ = 2 ^ i * 2 * 2 ^ j := by rw [this]
      _ ≤ 2 ^ i * 2 * a.den := by
          apply mul_le_mul_of_nonneg_left d1q; positivity
  · rename_i hnle
    have hlt := not_le.mp hnle
    have hsub : (2 : ℚ) ^ ((i : ℤ) - (j : ℤ) - 1 + 1) = 2 ^ ((i : ℤ) - (j : ℤ)) := by
      congr 1; ring
    refine ⟨?_, by rw [hsub]; exact hlt⟩
    have h3 := hz ((i : ℤ) - (j : ℤ) - 1)
    rw [hsub, he] at h3
    have h4 : (2 : ℚ) ^ ((i : ℤ) - (j : ℤ) - 1) = 2 ^ i / 2 ^ j / 2 := by
      rw [h3]; field_simp
    rw [h4, haeq, div_div, div_le_div_iff₀ (by positivity) hden]
    have : (2 : ℚ) ^ (j + 1) = 2 ^ j * 2 := pow_succ _ _
    calc (2 : ℚ) ^ i * a.den ≤ 2 ^ i * 2 ^ (j + 1) := by
          apply mul_le_mul_of_nonneg_left (le_of_lt d2q); positivity
      _ = 2 ^ i * (2 ^ j * 2) := by rw [this]
      _ ≤ a.num.natAbs * (2 ^ j * 2) := by
          apply mul_le_mul_of_nonneg_right n1q; positivity

/-- Rounding to the nearest integer moves a value by at most one half. -/
theorem roundHalfEven_near (t : ℚ) : |(roundHalfEven t : ℚ) - t| ≤ 1 / 2 := by
  have h1 : (⌊t⌋ : ℚ) ≤ t := Int.floor_le t
  have h2 : t < (⌊t⌋ : ℚ) + 1 := Int.lt_floor_add_one t
  unfold roundHalfEven
  simp only
  rw [abs_le]
  split_ifs with a b c
  · constructor <;> linarith
  · push_cast; constructor <;> linarith
  · constructor <;> linarith
  · push_cast; constructor <;> linarith

/-- The rounding error of `roundDouble` is at most half a unit in the last place. -/
theorem roundDouble_near (q : ℚ) :
    |roundDouble q - q| ≤ (2 : ℚ) ^ (binaryExponent |q| - 53) := by
  unfold roundDouble
  split
  · rename_i h0; subst h0; simp; positivity
  · simp only
    set ulp : ℚ := (2 : ℚ) ^ (binaryExponent |q| - 52) with hulp
    have hpos : 0 < ulp := by positivity
    have h := roundHalfEven_near (q / ulp)
    have e : (roundHalfEven (q / ulp) : ℚ) * ulp - q =
        ((roundHalfEven (q / ulp) : ℚ) - q / ulp) * ulp := by
      field_simp
    have e2 : (2 : ℚ) ^ (binaryExponent |q| - 53) = 1 / 2 * ulp := by
      rw [hulp]
      have : binaryExponent |q| - 52 = (binaryExponent |q| - 53) + 1 := by ring
      rw [this, zpow_add₀ (by norm_num : (2:ℚ) ≠ 0), zpow_one]; ring
    rw [e, abs_mul, abs_of_pos hpos, e2]
    exact mul_le_mul_of_nonneg_right h (le_of_lt hpos)

/-- The result of `roundDouble` is an integer multiple of the unit in the last place. -/
theorem roundDouble_grid (q : ℚ) :
    ∃ m : ℤ, roundDouble q = (m : ℚ) * (2 : ℚ) ^ (binaryExponent |q| - 52) := by
  unfold roundDouble
  split
  · exact ⟨0, by simp⟩
  · exact ⟨roundHalfEven (q / (2 : ℚ) ^ (binaryExponent |q| - 52)), rfl⟩


/-- The rounding function reproduces known binary64 values: `0.1` is
`0x3FB999999999999A`, `-1/3` is `0xBFD5555555555555`; a value half-way between two
neighbouring doubles goes to the one with even significand; doubles are fixed. -/
theorem roundDouble_known_values :
    roundDouble (1 / 10) = 3602879701896397 / 2 ^ 55 ∧
    roundDouble (-(1 / 3)) = -(6004799503160661 / 2 ^ 54) ∧
    roundDouble (1 - 1 / 2 ^ 53) = 1 - 1 / 2 ^ 53 ∧
    roundDouble (1 - 1 / 2 ^ 54) = 1 ∧
    roundDouble (1 - 3 / 2 ^ 54) = 1 - 1 / 2 ^ 52 ∧
    roundDouble (1 + 1 / 2 ^ 53) = 1 ∧
    roundDouble (1 + 3 / 2 ^ 53) = 1 + 1 / 2 ^ 51 ∧
    roundDouble 360 = 360 := by
  decide!

/-! ### Claims on `maths::clamp` -/

/-- C3, as stated, fails: with `value = 5`, `min = 10`, `max = 0` the value is greater than
`max`, yet `clamp` returns `min = 10` and not `max = 0`. -/
theorem clamp_returns_min_above_max :
    (5 : ℚ) > 0 ∧ (5 : ℚ) < 10 ∧ clamp (5 : ℚ) 10 0 = 10 ∧ clamp (5 : ℚ) 10 0 ≠ 0 := by
  decide!

/-- C3, amended: for every `value`, `min` and `max`, `clamp` returns `min` if `value` is
less than `min`; returns `max` if `value` is not less than `min` and is greater than `max`;
and otherwise returns `value` unchanged. -/
theorem clamp_cases {α : Type} [LT α] [DecidableRel (fun a b : α => a < b)]
    (value min max : α) :
    (value < min → clamp value min max = min) ∧
    (¬ value < min → value > max → clamp value min max = max) ∧
    (¬ value < min → ¬ value > max → clamp value min max = value) := by
  refine ⟨fun h => ?_, fun h1 h2 => ?_, fun h1 h2 => ?_⟩
  · simp [clamp, h]
  · simp [clamp, h1, h2]
  · simp [clamp, h1, h2]

theorem clamp_cases_witness :
    ((5 : ℚ) < 10 → clamp (5 : ℚ) 10 0 = 10) ∧
    (¬ (5 : ℚ) < 10 → (5 : ℚ) > 0 → clamp (5 : ℚ) 10 0 = 0) ∧
    (¬ (5 : ℚ) < 10 → ¬ (5 : ℚ) > 0 → clamp (5 : ℚ) 10 0 = 5) :=
  clamp_cases (5 : ℚ) 10 0

/-- On the rationals, when `min ≤ max`, no value is both below `min` and above `max`, and
`clamp` is the three-way case split without any precedence. -/
theorem clamp_of_min_le_max (value min max : ℚ) (h : min ≤ max) :
    (value > max → clamp value min max = max) ∧
    (value < min → clamp value min max = min) ∧
    (¬ value > max → ¬ value < min → clamp value min max = value) := by
  refine ⟨fun h1 => ?_, fun h1 => ?_, fun h1 h2 => ?_⟩
  · have h2 : ¬ value < min := not_lt.mpr (le_trans h (le_of_lt h1))
    simp [clamp, h1, h2]
  · simp [clamp, h1]
  · simp [clamp, h1, h2]

/-! ### Claims on `maths::normalizeAngle` -/

/-- C4, evaluation at the failing input: `normalizeAngle(1000.0)` is `640.0`, which is not
in the range `0 ≤ r < 360`; likewise `normalizeAngle(-1000.0)` is `-640.0`. -/
theorem normalizeAngle_1000 :
    normalizeAngle roundDouble 1000 = 640 ∧
    ¬ (0 ≤ normalizeAngle roundDouble 1000 ∧ normalizeAngle roundDouble 1000 < 360) ∧
    normalizeAngle roundDouble (-1000) = -640 ∧
    ¬ (0 ≤ normalizeAngle roundDouble (-1000) ∧
       normalizeAngle roundDouble (-1000) < 360) := by
  decide!

/-- One wrap is all `normalizeAngle` does: for `-360 ≤ angle < 720`, when the addition or
subtraction of 360 is exact, the result lies in `0 ≤ r < 360` and differs from `angle` by a
whole multiple of 360. -/
theorem normalizeAngle_single_wrap (rnd : ℚ → ℚ) (angle : ℚ)
    (hlo : -360 ≤ angle) (hhi : angle < 720)
    (hsub : rnd (angle - 360) = angle - 360) (hadd : rnd (angle + 360) = angle + 360) :
    0 ≤ normalizeAngle rnd angle ∧ normalizeAngle rnd angle < 360 ∧
    ∃ k : ℤ, angle - normalizeAngle rnd angle = (k : ℚ) * 360 := by
  unfold normalizeAngle
  by_cases h1 : angle ≥ 360
  · rw [if_pos h1, hsub]
    exact ⟨by linarith, by linarith, 1, by push_cast; ring⟩
  · rw [if_neg h1]
    by_cases h2 : angle < 0
    · rw [if_pos h2, hadd]
      exact ⟨by linarith, by linarith, -1, by push_cast; ring⟩
    · rw [if_neg h2]
      exact ⟨not_lt.mp h2, not_le.mp h1, 0, by push_cast; ring⟩

/-! ### Claims on `maths::mod` -/

/-- C5, as stated, fails in `double` arithmetic: for the doubles `x = -2^-60` and `y = 1`
the quotient is `x` (exact), its floor is `-1`, the product is `-1` (exact), and the exact
difference `1 - 2^-60` is changed by rounding to `1`; so `mod(x, y) = 1 = y`, and the bound
`r < y` is violated although `y > 0`.  Only the final subtraction rounds. -/
theorem mod_rounds_up_to_y :
    roundDouble (-(1 / 2 ^ 60)) = -(1 / 2 ^ 60) ∧ roundDouble 1 = 1 ∧
    (0 : ℚ) < 1 ∧
    roundDouble (-(1 / 2 ^ 60) / 1) = -(1 / 2 ^ 60) / 1 ∧
    roundDouble (1 * (⌊(-(1 / 2 ^ 60) : ℚ) / 1⌋ : ℚ)) = 1 * (⌊(-(1 / 2 ^ 60) : ℚ) / 1⌋ : ℚ) ∧
    roundDouble (-(1 / 2 ^ 60) - 1 * (⌊(-(1 / 2 ^ 60) : ℚ) / 1⌋ : ℚ)) ≠
      -(1 / 2 ^ 60) - 1 * (⌊(-(1 / 2 ^ 60) : ℚ) / 1⌋ : ℚ) ∧
    mod roundDouble (-(1 / 2 ^ 60)) 1 = 1 ∧
    ¬ (mod roundDouble (-(1 / 2 ^ 60)) 1 < 1) := by
  decide!

/-- Rounding of the product alone also breaks the stated equation: for the doubles
`x = 2^53 + 2` and `y = 3` the floor of the rounded quotient is the exact floor, the exact
product `2^53 + 1` is no double and rounds to `2^53`, and the subtraction `x - 2^53` is
exact; the result is `2`, while `x - y * floor(x / y) = 1`. -/
theorem mod_product_rounds :
    roundDouble (2 ^ 53 + 2) = 2 ^ 53 + 2 ∧ roundDouble 3 = 3 ∧
    ⌊roundDouble ((2 ^ 53 + 2) / 3)⌋ = ⌊((2 ^ 53 + 2 : ℚ)) / 3⌋ ∧
    roundDouble (3 * (⌊((2 ^ 53 + 2 : ℚ)) / 3⌋ : ℚ)) = 2 ^ 53 ∧
    roundDouble (2 ^ 53 + 2 - 2 ^ 53) = 2 ^ 53 + 2 - 2 ^ 53 ∧
    mod roundDouble (2 ^ 53 + 2) 3 = 2 ∧
    (2 ^ 53 + 2 : ℚ) - 3 * (⌊((2 ^ 53 + 2 : ℚ)) / 3⌋ : ℚ) = 1 := by
  decide!

/-- Rounding of the quotient can change its floor: for the doubles `x = 3 * 2^53 - 4` and
`y = 3` the exact quotient `2^53 - 4/3` rounds to `2^53 - 1`, whose floor is one more than
the exact floor `2^53 - 2`; the result is `0`, while `x - y * floor(x / y) = 2`. -/
theorem mod_floor_changes :
    roundDouble (3 * 2 ^ 53 - 4) = 3 * 2 ^ 53 - 4 ∧
    ⌊roundDouble ((3 * 2 ^ 53 - 4) / 3)⌋ = 2 ^ 53 - 1 ∧
    ⌊((3 * 2 ^ 53 - 4 : ℚ)) / 3⌋ = 2 ^ 53 - 2 ∧
    mod roundDouble (3 * 2 ^ 53 - 4) 3 = 0 ∧
    (3 * 2 ^ 53 - 4 : ℚ) - 3 * (⌊((3 * 2 ^ 53 - 4 : ℚ)) / 3⌋ : ℚ) = 2 := by
  decide!

/-- C5, amended: `maths::mod` is the GLSL mod evaluated in `double` arithmetic.  For every
`x` and every `y > 0` such that the rounded quotient has the same floor as the exact
quotient `x / y` (the quotient itself may be rounded) and the product `y * floor(x / y)`
and the final subtraction are not changed by rounding, `mod(x, y) = x - y * floor(x / y)`,
the result `r` satisfies `0 ≤ r < y`, and `x - r` is an integer multiple of `y` (so a
negative `x` yields a non-negative result). -/
theorem mod_exact_spec (rnd : ℚ → ℚ) (x y : ℚ) (hy : 0 < y)
    (hfloor : ⌊rnd (x / y)⌋ = ⌊x / y⌋)
    (hmul : rnd (y * (⌊x / y⌋ : ℚ)) = y * (⌊x / y⌋ : ℚ))
    (hsub : rnd (x - y * (⌊x / y⌋ : ℚ)) = x - y * (⌊x / y⌋ : ℚ)) :
    mod rnd x y = x - y * (⌊x / y⌋ : ℚ) ∧
    0 ≤ mod rnd x y ∧ mod rnd x y < y ∧
    ∃ k : ℤ, x - mod rnd x y = (k : ℚ) * y := by
  have hm : mod rnd x y = x - y * (⌊x / y⌋ : ℚ) := by
    simp only [mod, hfloor, hmul, hsub]
  have h1 : (⌊x / y⌋ : ℚ) ≤ x / y := Int.floor_le _
  have h2 : x / y < (⌊x / y⌋ : ℚ) + 1 := Int.lt_floor_add_one _
  rw [le_div_iff₀ hy] at h1
  rw [div_lt_iff₀ hy] at h2
  refine ⟨hm, ?_, ?_, ⌊x / y⌋, ?_⟩
  · rw [hm]; linarith
  · rw [hm]; linarith
  · rw [hm]; ring

theorem mod_exact_spec_witness :
    (0 : ℚ) < 360 ∧
    roundDouble (370 / 360) ≠ 370 / 360 ∧
    ⌊roundDouble (370 / 360)⌋ = ⌊(370 : ℚ) / 360⌋ ∧
    (mod roundDouble 370 360 = 370 - 360 * (⌊(370 : ℚ) / 360⌋ : ℚ) ∧
      0 ≤ mod roundDouble 370 360 ∧ mod roundDouble 370 360 < 360 ∧
      ∃ k : ℤ, 370 - mod roundDouble 370 360 = (k : ℚ) * 360) :=
  ⟨by decide!, by decide!, by decide!,
   mod_exact_spec roundDouble 370 360 (by decide!) (by decide!) (by decide!) (by decide!)⟩

/-- The amended statement covers inputs whose quotient is not a double: `mod(370, 360)`,
`mod(7, 3)` and `mod(-30, 360)` evaluate to `10`, `1` and `330`. -/
theorem mod_inexact_quotient_values :
    mod roundDouble 370 360 = 10 ∧ mod roundDouble 7 3 = 1 ∧
    mod roundDouble (-30) 360 = 330 ∧
    roundDouble (7 / 3) ≠ 7 / 3 ∧ roundDouble (-30 / 360) ≠ -30 / 360 := by
  decide!

end flounder

namespace acid

/-! ### The ranked multimap -/

/-- Emplacing adds exactly the new entry. -/
theorem emplace_perm {D : Type} (key : Int) (value : D) (m : List (Int × D)) :
    (emplace key value m).Perm ((key, value) :: m) := by
  induction m with
  | nil => simp [emplace]
  | cons entry rest ih =>
    unfold emplace
    split
    · exact List.Perm.refl _
    · exact (List.Perm.cons entry ih).trans (List.Perm.swap _ _ _)

/-- Emplacing keeps the entries in ascending key order. -/
theorem emplace_sorted {D : Type} (key : Int) (value : D) (m : List (Int × D))
    (hm : m.Pairwise (fun a b => a.1 ≤ b.1)) :
    (emplace key value m).Pairwise (fun a b => a.1 ≤ b.1) := by
  induction m with
  | nil => simp [emplace]
  | cons entry rest ih =>
    rw [List.pairwise_cons] at hm
    unfold emplace
    split
    · rename_i hlt
      refine List.Pairwise.cons ?_ (List.Pairwise.cons hm.1 hm.2)
      intro b hb
      rcases List.mem_cons.mp hb with rfl | hb
      · exact le_of_lt hlt
      · exact le_trans (le_of_lt hlt) (hm.1 b hb)
    · rename_i hge
      refine List.Pairwise.cons ?_ (ih hm.2)
      intro b hb
      rcases List.mem_cons.mp ((emplace_perm key value rest).mem_iff.mp hb) with rfl | hb
      · exact not_lt.mp hge
      · exact hm.1 b hb

/-- The ranking loop, from any sorted multimap: the result is sorted and holds the old
entries and one entry per device. -/
theorem foldl_emplace_spec {D : Type} (score : D → Int) (devices : List D)
    (m : List (Int × D)) (hm : m.Pairwise (fun a b => a.1 ≤ b.1)) :
    (devices.foldl (fun r device => emplace (score device) device r) m).Pairwise
        (fun a b => a.1 ≤ b.1) ∧
    (devices.foldl (fun r device => emplace (score device) device r) m).Perm
        (m ++ devices.map (fun d => (score d, d))) := by
  induction devices generalizing m with
  | nil => simpa using hm
  | cons d rest ih =>
    simp only [List.foldl_cons, List.map_cons]
    obtain ⟨h1, h2⟩ := ih (emplace (score d) d m) (emplace_sorted _ _ _ hm)
    refine ⟨h1, h2.trans ?_⟩
    refine ((emplace_perm (score d) d m).append_right _).trans ?_
    simp only [List.cons_append]
    exact List.perm_middle.symm

/-- The ranked multimap is sorted by score and holds exactly one entry per device. -/
theorem rankDevices_spec {D : Type} (score : D → Int) (devices : List D) :
    (rankDevices score devices).Pairwise (fun a b => a.1 ≤ b.1) ∧
    (rankDevices score devices).Perm (devices.map (fun d => (score d, d))) := by
  simpa [rankDevices] using foldl_emplace_spec score devices [] List.Pairwise.nil

/-- The last entry of the ranked multimap is a device of the list with its score, and no
device of the list scores higher. -/
theorem rankDevices_last {D : Type} (score : D → Int) (devices : List D) (hne : devices ≠ []) :
    ∃ best ∈ devices, (rankDevices score devices).getLast? = some (score best, best) ∧
      ∀ d ∈ devices, score d ≤ score best := by
  obtain ⟨hs, hp⟩ := rankDevices_spec score devices
  have hne' : rankDevices score devices ≠ [] := by
    intro h
    rw [h] at hp
    have := hp.length_eq
    simp at this
    exact hne (by simpa using this.symm)
  obtain ⟨init, last, hl⟩ : ∃ init last, rankDevices score devices = init ++ [last] :=
    ⟨_, _, (List.dropLast_append_getLast hne').symm⟩
  have hmem : last ∈ devices.map (fun d => (score d, d)) :=
    hp.mem_iff.mp (by rw [hl]; simp)
  obtain ⟨best, hb, rfl⟩ := List.mem_map.mp hmem
  refine ⟨best, hb, by rw [hl]; simp, ?_⟩
  intro d hd
  have hdm : (score d, d) ∈ rankDevices score devices :=
    hp.mem_iff.mpr (List.mem_map.mpr ⟨d, hd, rfl⟩)
  rw [hl] at hdm hs
  rcases List.mem_append.mp hdm with h | h
  · exact (List.pairwise_append.mp hs).2.2 (score d, d) h (score best, best) (by simp)
  · simp only [List.mem_singleton, Prod.mk.injEq] at h
    exact le_of_eq h.1

/-! ### Claims on `PhysicalDevice::ChoosePhysicalDevice` -/

/-- C6: for every non-empty device list there is a maximum `ScorePhysicalDevice` score over
the list; when it is greater than 0, `ChoosePhysicalDevice` returns a device of the list
whose score is that maximum, and when it is not greater than 0 it returns no device
(`nullptr`). -/
theorem ChoosePhysicalDevice_max {D : Type} (deviceExtensions : List String)
    (driver : D → DeviceReport) (devices : List D) (hne : devices ≠ []) :
    ∃ maxScore : Int,
      (∃ d ∈ devices, ScorePhysicalDevice deviceExtensions driver d = maxScore) ∧
      (∀ d ∈ devices, ScorePhysicalDevice deviceExtensions driver d ≤ maxScore) ∧
      (0 < maxScore → ∃ d ∈ devices,
        ScorePhysicalDevice deviceExtensions driver d = maxScore ∧
        ChoosePhysicalDevice deviceExtensions driver devices = some (some d)) ∧
      (¬ 0 < maxScore → ChoosePhysicalDevice deviceExtensions driver devices = some none) := by
  obtain ⟨best, hb, hlast, hmax⟩ :=
    rankDevices_last (ScorePhysicalDevice deviceExtensions driver) devices hne
  refine ⟨_, ⟨best, hb, rfl⟩, hmax, ?_, ?_⟩
  · intro hpos
    exact ⟨best, hb, rfl, by simp [ChoosePhysicalDevice, hlast, hpos]⟩
  · intro hnp
    simp [ChoosePhysicalDevice, hlast, hnp]

theorem ChoosePhysicalDevice_max_witness :
    [0, 1] ≠ ([] : List Nat) ∧
    ∃ maxScore : Int,
      (∃ d ∈ [0, 1], ScorePhysicalDevice ["VK_KHR_swapchain"] demoDriver d = maxScore) ∧
      (∀ d ∈ [0, 1], ScorePhysicalDevice ["VK_KHR_swapchain"] demoDriver d ≤ maxScore) ∧
      (0 < maxScore → ∃ d ∈ [0, 1],
        ScorePhysicalDevice ["VK_KHR_swapchain"] demoDriver d = maxScore ∧
        ChoosePhysicalDevice ["VK_KHR_swapchain"] demoDriver [0, 1] = some (some d)) ∧
      (¬ 0 < maxScore →
        ChoosePhysicalDevice ["VK_KHR_swapchain"] demoDriver [0, 1] = some none) :=
  ⟨by decide, ChoosePhysicalDevice_max ["VK_KHR_swapchain"] demoDriver [0, 1] (by decide)⟩

/-- The demo driver evaluated: the integrated GPU scores 16384, the discrete GPU
1000 + 8192, and the integrated one is chosen; with an extension neither device reports,
both score 0 and nothing is chosen; an empty device list is outside the defined behaviour. -/
theorem ChoosePhysicalDevice_demo :
    ScorePhysicalDevice ["VK_KHR_swapchain"] demoDriver 0 = 16384 ∧
    ScorePhysicalDevice ["VK_KHR_swapchain"] demoDriver 1 = 9192 ∧
    ChoosePhysicalDevice ["VK_KHR_swapchain"] demoDriver [0, 1] = some (some 0) ∧
    ChoosePhysicalDevice ["VK_KHR_swapchain"] demoDriver [1, 0] = some (some 0) ∧
    ChoosePhysicalDevice ["VK_KHR_ray_query"] demoDriver [0, 1] = some none ∧
    ChoosePhysicalDevice ["VK_KHR_swapchain"] demoDriver [] = none := by
  decide!

end acid
